import Mathlib

/-!
Shallow embedding of src/scScope.py: the scScope recurrent imputing
autoencoder (class scScope) and its trainer (class scScopeTrainer).
Matrices are lists of rows of rationals; torch elementwise operations
become zipWith/map; torch.norm is Real.sqrt of the rational sum of
squares; the non-finite float produced by an unguarded division by a
zero norm is embedded as Option.none.
-/

namespace ScScopePy

/-- A dense numeric matrix (list of rows), embedding torch tensors and numpy arrays. -/
abbrev Mat := List (List ℚ)

/-- torch.sign on a scalar: 1 on positives, -1 on negatives, 0 at 0. -/
def signQ (x : ℚ) : ℚ := if 0 < x then 1 else if x < 0 then -1 else 0

/-- F.relu on a scalar. -/
def reluQ (x : ℚ) : ℚ := max x 0

/-- Elementwise binary operation on two matrices (all operands of
scScope.forward and scScopeTrainer.loss share one shape; zipWith truncates). -/
def map2 (f : ℚ → ℚ → ℚ) (a b : Mat) : Mat :=
  List.zipWith (fun r s => List.zipWith f r s) a b

/-- Elementwise unary operation on a matrix. -/
def mapMat (f : ℚ → ℚ) (m : Mat) : Mat := m.map (fun r => r.map f)

def addM (a b : Mat) : Mat := map2 (· + ·) a b

def subM (a b : Mat) : Mat := map2 (· - ·) a b

def mulM (a b : Mat) : Mat := map2 (· * ·) a b

def signM (m : Mat) : Mat := mapMat signQ m

def reluM (m : Mat) : Mat := mapMat reluQ m

/-- Adding a scalar to every entry (torch broadcasting of `input_d_corrected + 1`). -/
def addCM (m : Mat) (c : ℚ) : Mat := mapMat (· + c) m

/-- Entry (i, j) of a matrix, 0 outside the stored shape. -/
def entry (m : Mat) (i j : ℕ) : ℚ := (m.getD i []).getD j 0

def dotQ (u v : List ℚ) : ℚ := (List.zipWith (· * ·) u v).sum

/-- nn.Linear with bias=False: x ↦ x Wᵀ applied row-wise; w is (out_features × in_features). -/
def linearNoBias (w : Mat) (x : Mat) : Mat :=
  x.map (fun row => w.map (fun wrow => dotQ row wrow))

/-- Sum of squared entries; torch.norm of a matrix is Real.sqrt of this. -/
def normSq (m : Mat) : ℚ := (m.map (fun r => (r.map (fun x => x * x)).sum)).sum

/-- torch.norm (Frobenius norm). -/
noncomputable def rnorm (m : Mat) : ℝ := Real.sqrt ((normSq m : ℚ) : ℝ)

/-- The scScope model instance (src/scScope.py lines 19-76).  The encoder
stack, latent bottleneck layer, decoder stack and final output projection
come from the AutoEncoder base class (network.py, an out-of-scope external
collaborator of this snapshot) and are embedded as abstract functions; the
batch-effect layer is the bias-free nn.Linear built in __init__ (lines
41-42), embedded by its weight matrix; imputation_model is the instance
attribute assigned inside forward (line 63), absent (none) until then. -/
structure Model where
  t : ℕ
  encode : Mat → Mat
  latent_layer : Mat → Mat
  decode : Mat → Mat
  output_layer : Mat → Mat
  batch_effect_weight : Mat
  imputation_model : Option (Mat → Mat)

/-- Line 67: torch.mul(1 - torch.sign(self.input), imputed); the first
argument is the raw input saved at line 45, the second the output of the
imputation network. -/
def mergeImputed (input imputed : Mat) : Mat :=
  map2 (fun x im => (1 - signQ x) * im) input imputed

/-- Lines 69-72: the shared encoder, latent bottleneck, decoder and output
projection applied to one round input; returns (output, latent_features). -/
def coreOut (m : Model) (x : Mat) : Mat × Mat :=
  let lf := m.latent_layer (m.encode x)
  (m.output_layer (m.decode lf), lf)

/-- Rounds i = 1 .. t-1 of the loop in forward (lines 52-74): each round
consumes the previous round output, applies the imputation network that was
assigned when i reached 1, merges with the raw input (lines 66-67),
recorrects and rectifies (line 68), then runs the shared core; outputs and
latents are accumulated in round order. -/
def laterRounds (m : Model) (imp : Mat → Mat) (raw bc : Mat) : ℕ → Mat → List Mat × List Mat
  | 0, _ => ([], [])
  | n + 1, prevOut =>
    let x := reluM (subM (addM (mergeImputed raw (imp prevOut)) raw) bc)
    let p := coreOut m x
    let rest := laterRounds m imp raw bc n p.1
    (p.1 :: rest.1, p.2 :: rest.2)

/-- The tuple returned by scScope.forward (line 76) together with the model
instance as it stands after the call (its mutated instance attributes). -/
structure ForwardResult where
  output_list : List Mat
  latent_features_list : List Mat
  batch_effect_removal_layer : Mat
  model : Model

/-- scScope.forward (lines 44-76).  freshImpute is the freshly initialized
two-layer imputation network built at lines 55-64 whenever the loop reaches
i = 1; its random weight initialization is embedded by passing the resulting
function as an argument.  The source rebinds self.imputation_model to this
fresh network with no presence check, so the returned model stores
freshImpute whenever t ≥ 2 and keeps its previous attribute when t ≤ 1. -/
def forward (m : Model) (freshImpute : Mat → Mat) (x exp_batch_input : Mat) : ForwardResult :=
  let bc := linearNoBias m.batch_effect_weight exp_batch_input
  match m.t with
  | 0 => ⟨[], [], bc, m⟩
  | 1 =>
    let p := coreOut m (reluM (subM x bc))
    ⟨[p.1], [p.2], bc, m⟩
  | Nat.succ (Nat.succ k) =>
    let p := coreOut m (reluM (subM x bc))
    let rest := laterRounds m freshImpute x bc (k + 1) p.1
    ⟨p.1 :: rest.1, p.2 :: rest.2, bc, { m with imputation_model := some freshImpute }⟩

/-- Lines 135-139 of scScopeTrainer.loss: the reconstruction mask. -/
def lossMask (use_mask : Bool) (input_d bc : Mat) : Mat :=
  if use_mask then signM (subM input_d bc) else signM (addCM (subM input_d bc) 1)

/-- One round term norm(mask*out - mask*corrected) / norm(mask*raw) of
lines 144-148.  The division is unguarded in the source; on floats a zero
denominator produces a non-finite value (inf or nan), embedded here as
none; otherwise the term is the finite real quotient. -/
noncomputable def lossTerm (val_mask out_layer input_d_corrected input_d : Mat) : Option ℝ :=
  if normSq (mulM val_mask input_d) = 0 then none
  else
    some (rnorm (subM (mulM val_mask out_layer) (mulM val_mask input_d_corrected)) /
      rnorm (mulM val_mask input_d))

/-- Float addition with non-finite propagation: once one summand is
non-finite (none), the accumulated loss stays non-finite. -/
noncomputable def addOpt : Option ℝ → Option ℝ → Option ℝ
  | some a, some b => some (a + b)
  | _, _ => none

/-- scScopeTrainer.loss (lines 134-150): the per-round terms accumulated
across the rounds, starting from round 0 (lines 143-145) and adding each
later round term (lines 146-148); an empty round list leaves the Python
local unbound (a NameError), embedded as none. -/
noncomputable def loss (output_layer_list : List Mat) (input_d : Mat) (use_mask : Bool)
    (bc : Mat) : Option ℝ :=
  match output_layer_list with
  | [] => none
  | o :: os =>
    os.foldl
      (fun acc o2 => addOpt acc (lossTerm (lossMask use_mask input_d bc) o2 (subM input_d bc) input_d))
      (lossTerm (lossMask use_mask input_d bc) o (subM input_d bc) input_d)

/-- One round term as a real number: norm of masked output minus masked
corrected input, divided by norm of the masked uncorrected raw input. -/
noncomputable def lossTermOf (val_mask input_d_corrected input_d o : Mat) : ℝ :=
  rnorm (subM (mulM val_mask o) (mulM val_mask input_d_corrected)) / rnorm (mulM val_mask input_d)

/-- Numpy advanced assignment one_hot[:, labels - 1] = 1 (lines 94-95 and
155-156): starting from a zeros matrix of shape (cells × numB), the whole
column (l - 1) is set to 1 across every row, for each label l occurring
anywhere in the label vector; a negative index (as produced by label 0)
wraps modulo numB as numpy column indexing does. -/
def oneHotAssign (labels : List ℤ) (cells numB : ℕ) : Mat :=
  List.replicate cells
    ((List.range numB).map
      (fun (j : ℕ) =>
        if labels.any (fun l => (l - 1) % (numB : ℤ) == ((j : ℕ) : ℤ)) then (1 : ℚ) else 0))

/-- Modelled from the spec: the batch indicator construction shared by
scScopeTrainer.__init__ (lines 93-98) and predict (lines 154-158); the
external GeneExpressionDataset (dataset.py, missing from the snapshot) is
modelled from the spec as holding the per-cell batch labels as a
cells × 1 column, with num_batches the number of distinct labels and
nb_cells the number of cells.  With more than one distinct label the numpy
column assignment above is used; otherwise np.ones_like of the cells × 1
label column gives a cells × 1 column of ones. -/
def buildOneHotBatches (labels : List ℤ) : Mat :=
  if 1 < labels.dedup.length then oneHotAssign labels labels.length labels.dedup.length
  else List.replicate labels.length [(1 : ℚ)]

/-- A Python value flowing through predict: either a torch tensor or a
Python list of values. -/
inductive PyVal where
  | tensor (m : Mat)
  | pylist (l : List PyVal)

/-- Tensor.detach().numpy(); a Python list has no detach attribute, so the
call raises an AttributeError. -/
def detachNumpy : PyVal → Except String Mat
  | PyVal.tensor m => Except.ok m
  | PyVal.pylist _ => Except.error "AttributeError: list object has no attribute detach"

/-- scScopeTrainer.predict (lines 152-170): builds the indicator, runs the
model forward, then line 166 calls .detach() on output_layer, which is the
Python list of per-round output tensors returned by forward, not a tensor. -/
def predict (m : Model) (freshImpute : Mat → Mat) (input_d : Mat) (batch_data : List ℤ) :
    Except String (Mat × List Mat × Mat) :=
  let one_hot_batches := buildOneHotBatches batch_data
  let r := forward m freshImpute input_d one_hot_batches
  match detachNumpy (PyVal.pylist (r.output_list.map PyVal.tensor)) with
  | Except.error e => Except.error e
  | Except.ok o => Except.ok (o, r.latent_features_list, r.batch_effect_removal_layer)

/-- Number of entries of a matrix equal to 1: the entries a mask selects. -/
def countOnes (m : Mat) : ℕ := (m.map (fun r => r.countP (fun x => x == 1))).sum

/-- A concrete one-gene, one-batch model instance with t = 2; the core
modules are identities, the batch-effect weight is zero-initialized. -/
def oneCellModel2 : Model :=
  { t := 2, encode := id, latent_layer := id, decode := id, output_layer := id,
    batch_effect_weight := [[0]], imputation_model := none }

/-- The same concrete instance but with a single round, t = 1. -/
def oneCellModel1 : Model :=
  { t := 1, encode := id, latent_layer := id, decode := id, output_layer := id,
    batch_effect_weight := [[0]], imputation_model := none }

/-- A constant candidate imputation network. -/
def constMat0 : Mat → Mat := fun _ => [[0]]

/-- A second, different constant candidate imputation network. -/
def constMat1 : Mat → Mat := fun _ => [[1]]

theorem getD_len_le {α : Type} (d : α) : ∀ (l : List α) (i : ℕ), l.length ≤ i → l.getD i d = d := by
  intro l
  induction l with
  | nil => intro i _; cases i <;> rfl
  | cons a r ih =>
    intro i h
    cases i with
    | zero => simp at h
    | succ j => simpa using ih j (by simpa using h)

theorem map2_getD_row (f : ℚ → ℚ → ℚ) :
    ∀ (a b : Mat) (i : ℕ),
      (map2 f a b).getD i [] = List.zipWith f (a.getD i []) (b.getD i []) := by
  intro a
  induction a with
  | nil => intro b i; cases b <;> cases i <;> rfl
  | cons r rs ih =>
    intro b i
    cases b with
    | nil => cases i <;> simp [map2, List.zipWith_nil_right]
    | cons s ss =>
      cases i with
      | zero => rfl
      | succ j => simpa [map2] using ih ss j

theorem mapMat_getD_row (f : ℚ → ℚ) :
    ∀ (m : Mat) (i : ℕ), (mapMat f m).getD i [] = (m.getD i []).map f := by
  intro m
  induction m with
  | nil => intro i; cases i <;> rfl
  | cons r rs ih =>
    intro i
    cases i with
    | zero => rfl
    | succ j => simpa [mapMat] using ih j

theorem zipWith_row_getD_lt (f : ℚ → ℚ → ℚ) :
    ∀ (r s : List ℚ) (j : ℕ), j < r.length → j < s.length →
      (List.zipWith f r s).getD j 0 = f (r.getD j 0) (s.getD j 0) := by
  intro r
  induction r with
  | nil => intro s j h; simp at h
  | cons a r ih =>
    intro s j h1 h2
    cases s with
    | nil => simp at h2
    | cons b s =>
      cases j with
      | zero => rfl
      | succ j =>
        simpa using ih s j (by simpa using h1) (by simpa using h2)

theorem map_row_getD_zero (f : ℚ → ℚ) (h0 : f 0 = 0) :
    ∀ (r : List ℚ) (j : ℕ), (r.map f).getD j 0 = f (r.getD j 0) := by
  intro r
  induction r with
  | nil => intro j; cases j <;> simp [h0]
  | cons a r ih =>
    intro j
    cases j with
    | zero => rfl
    | succ j => simpa using ih j

theorem map_row_getD_lt (f : ℚ → ℚ) :
    ∀ (r : List ℚ) (j : ℕ), j < r.length → (r.map f).getD j 0 = f (r.getD j 0) := by
  intro r
  induction r with
  | nil => intro j h; simp at h
  | cons a r ih =>
    intro j h
    cases j with
    | zero => rfl
    | succ j => simpa using ih j (by simpa using h)

theorem entry_mapMat_zero (f : ℚ → ℚ) (h0 : f 0 = 0) (m : Mat) (i j : ℕ) :
    entry (mapMat f m) i j = f (entry m i j) := by
  simp only [entry, mapMat_getD_row]
  exact map_row_getD_zero f h0 (m.getD i []) j

theorem entry_mapMat_lt (f : ℚ → ℚ) (m : Mat) (i j : ℕ) (h : j < (m.getD i []).length) :
    entry (mapMat f m) i j = f (entry m i j) := by
  simp only [entry, mapMat_getD_row]
  exact map_row_getD_lt f (m.getD i []) j h

theorem signQ_zero : signQ 0 = 0 := rfl

theorem signQ_eq_one_iff (x : ℚ) : signQ x = 1 ↔ 0 < x := by
  unfold signQ
  by_cases h1 : 0 < x
  · simp [h1]
  · by_cases h2 : x < 0
    · simp only [if_neg h1, if_pos h2]
      constructor
      · intro h; norm_num at h
      · intro h; exact absurd h h1
    · simp only [if_neg h1, if_neg h2]
      constructor
      · intro h; norm_num at h
      · intro h; exact absurd h h1

theorem sub_self_rowSq (r : List ℚ) :
    ((List.zipWith (fun a b => a - b) r r).map (fun x => x * x)).sum = 0 := by
  induction r with
  | nil => rfl
  | cons a r ih => simpa using ih

theorem normSq_subM_self (y : Mat) : normSq (subM y y) = 0 := by
  induction y with
  | nil => rfl
  | cons r rs ih =>
    simp only [normSq, subM, map2, List.zipWith_cons_cons, List.map_cons, List.sum_cons]
    have h1 : ((List.zipWith (fun a b => a - b) r r).map (fun x => x * x)).sum = 0 :=
      sub_self_rowSq r
    have h2 : ((List.zipWith (fun r s => List.zipWith (fun a b => a - b) r s) rs rs).map
        (fun r => (r.map (fun x => x * x)).sum)).sum = 0 := by
      simpa [normSq, subM, map2] using ih
    simp only [show (fun a b : ℚ => a - b) = (· - ·) from rfl] at h1 h2
    rw [h1, h2]
    ring

theorem rnorm_subM_self (y : Mat) : rnorm (subM y y) = 0 := by
  simp [rnorm, normSq_subM_self]

theorem foldl_addOpt_none (g : Mat → Option ℝ) (os : List Mat) :
    os.foldl (fun acc o2 => addOpt acc (g o2)) none = none := by
  induction os with
  | nil => rfl
  | cons o os ih =>
    have h : addOpt none (g o) = none := by cases g o <;> rfl
    simpa [h] using ih

theorem foldl_addOpt_some (g : Mat → Option ℝ) (f : Mat → ℝ) (hg : ∀ o, g o = some (f o)) :
    ∀ (os : List Mat) (a : ℝ),
      os.foldl (fun acc o2 => addOpt acc (g o2)) (some a) = some (a + (os.map f).sum) := by
  intro os
  induction os with
  | nil => intro a; simp
  | cons o os ih =>
    intro a
    have step : addOpt (some a) (g o) = some (a + f o) := by rw [hg o]; rfl
    calc (o :: os).foldl (fun acc o2 => addOpt acc (g o2)) (some a)
        = os.foldl (fun acc o2 => addOpt acc (g o2)) (some (a + f o)) := by
          simp [List.foldl_cons, step]
      _ = some (a + f o + (os.map f).sum) := ih (a + f o)
      _ = some (a + ((o :: os).map f).sum) := by simp [add_assoc]

theorem laterRounds_length_fst (m : Model) (imp : Mat → Mat) (raw bc : Mat) :
    ∀ (n : ℕ) (p : Mat), (laterRounds m imp raw bc n p).1.length = n := by
  intro n
  induction n with
  | zero => intro p; rfl
  | succ k ih => intro p; simpa [laterRounds] using ih _

theorem laterRounds_length_snd (m : Model) (imp : Mat → Mat) (raw bc : Mat) :
    ∀ (n : ℕ) (p : Mat), (laterRounds m imp raw bc n p).2.length = n := by
  intro n
  induction n with
  | zero => intro p; rfl
  | succ k ih => intro p; simpa [laterRounds] using ih _

theorem forward_model_of_t_le_one (m : Model) (fresh : Mat → Mat) (x b : Mat) (h : m.t ≤ 1) :
    (forward m fresh x b).model = m := by
  obtain ⟨t, enc, lat, dec, outp, w, im⟩ := m
  simp only [Model.t] at h
  match t, h with
  | 0, _ => rfl
  | 1, _ => rfl

theorem forward_bc (m : Model) (fresh : Mat → Mat) (x b : Mat) :
    (forward m fresh x b).batch_effect_removal_layer = linearNoBias m.batch_effect_weight b := by
  obtain ⟨t, enc, lat, dec, outp, w, im⟩ := m
  match t with
  | 0 => rfl
  | 1 => rfl
  | Nat.succ (Nat.succ k) => rfl

theorem forward_len_fst (m : Model) (fresh : Mat → Mat) (x b : Mat) :
    (forward m fresh x b).output_list.length = m.t := by
  obtain ⟨t, enc, lat, dec, outp, w, im⟩ := m
  match t with
  | 0 => rfl
  | 1 => rfl
  | Nat.succ (Nat.succ k) =>
    show (_ :: _).length = k + 2
    simp [laterRounds_length_fst]

theorem forward_len_snd (m : Model) (fresh : Mat → Mat) (x b : Mat) :
    (forward m fresh x b).latent_features_list.length = m.t := by
  obtain ⟨t, enc, lat, dec, outp, w, im⟩ := m
  match t with
  | 0 => rfl
  | 1 => rfl
  | Nat.succ (Nat.succ k) =>
    show (_ :: _).length = k + 2
    simp [laterRounds_length_snd]

theorem dedup_length_le_one (labels : List ℤ) (v : ℤ) (hall : ∀ l ∈ labels, l = v) :
    labels.dedup.length ≤ 1 := by
  rcases h : labels.dedup with _ | ⟨a, _ | ⟨b, rest⟩⟩
  · simp
  · simp
  · exfalso
    have ha : a ∈ labels := List.mem_dedup.mp (by rw [h]; exact List.mem_cons_self a _)
    have hb : b ∈ labels := List.mem_dedup.mp (by
      rw [h]; exact List.mem_cons_of_mem a (List.mem_cons_self b _))
    have hnd := labels.nodup_dedup
    rw [h] at hnd
    have : a ∉ b :: rest := (List.nodup_cons.mp hnd).1
    exact this (by rw [hall a ha, ← hall b hb]; exact List.mem_cons_self b _)

theorem replicate_getD_lt {α : Type} (a d : α) :
    ∀ (n i : ℕ), i < n → (List.replicate n a).getD i d = a := by
  intro n
  induction n with
  | zero => intro i h; simp at h
  | succ k ih =>
    intro i h
    cases i with
    | zero => rfl
    | succ j => simpa [List.replicate] using ih j (by omega)

theorem append_getD_left {α : Type} (d : α) :
    ∀ (l1 l2 : List α) (j : ℕ), j < l1.length → (l1 ++ l2).getD j d = l1.getD j d := by
  intro l1
  induction l1 with
  | nil => intro l2 j h; simp at h
  | cons a r ih =>
    intro l2 j h
    cases j with
    | zero => rfl
    | succ j => simpa using ih l2 j (by simpa using h)

theorem append_getD_length {α : Type} (d : α) :
    ∀ (l1 : List α) (b : α), (l1 ++ [b]).getD l1.length d = b := by
  intro l1
  induction l1 with
  | nil => intro b; rfl
  | cons a r ih => intro b; simpa using ih b

theorem range_map_getD (f : ℕ → ℚ) :
    ∀ (n j : ℕ), j < n → ((List.range n).map f).getD j 0 = f j := by
  intro n
  induction n with
  | zero => intro j h; simp at h
  | succ k ih =>
    intro j h
    rw [List.range_succ, List.map_append]
    rcases Nat.lt_or_ge j k with hk | hk
    · rw [append_getD_left 0 _ _ j (by simpa using hk)]
      exact ih j hk
    · have hj : j = k := by omega
      subst hj
      have hlen : ((List.range j).map f).length = j := by simp
      simpa [List.map_cons] using (hlen ▸ append_getD_length (0 : ℚ) ((List.range j).map f) (f j))

theorem countP_map_row (p : ℚ → Bool) (f : ℚ → ℚ) :
    ∀ (r : List ℚ), (r.map f).countP p = r.countP (fun x => p (f x)) := by
  intro r
  induction r with
  | nil => rfl
  | cons a r ih => simp [List.countP_cons, ih]

theorem countP_le_countP_row (p q : ℚ → Bool) :
    ∀ (r : List ℚ), (∀ x ∈ r, p x = true → q x = true) → r.countP p ≤ r.countP q := by
  intro r
  induction r with
  | nil => intro _; simp
  | cons a r ih =>
    intro h
    simp only [List.countP_cons]
    have hr := ih (fun x hx => h x (List.mem_cons_of_mem a hx))
    have hif : (if p a = true then 1 else 0) ≤ (if q a = true then 1 else 0) := by
      rcases hpa : p a with _ | _
      · simp [hpa]
      · simp [hpa, h a (List.mem_cons_self a r) hpa]
    omega

theorem countOnes_signM_le (C : Mat) :
    countOnes (signM C) ≤ countOnes (signM (addCM C 1)) := by
  unfold countOnes signM addCM mapMat
  simp only [List.map_map]
  apply List.sum_le_sum
  intro r _
  simp only [Function.comp]
  simp only [countP_map_row]
  apply countP_le_countP_row
  intro x _ hpx
  have h2 : 0 < x := (signQ_eq_one_iff x).mp (by simpa using hpx)
  simpa using (signQ_eq_one_iff (x + 1)).mpr (by linarith)

/-- C1: the claim that on a model instance with t ≥ 2 the imputation
subnetwork is constructed exactly once and that the same instance is reused
for every subsequent forward call fails on the code: forward rebinds
self.imputation_model to a freshly initialized network whenever the round
index reaches 1, with no presence check, so a second forward call replaces
the network stored by the first.  Evaluated on a concrete t = 2 model and
two distinct fresh networks: after the first call the stored network is the
first fresh one, after the second call it is the second fresh one. -/
theorem c1_imputation_rebuilt_every_forward :
    (forward oneCellModel2 constMat0 [[1]] [[1]]).model.imputation_model = some constMat0
  ∧ (forward (forward oneCellModel2 constMat0 [[1]] [[1]]).model constMat1
      [[1]] [[1]]).model.imputation_model = some constMat1
  ∧ constMat0 ≠ constMat1 :=
  ⟨rfl, rfl, fun h => by
    have h2 := congrFun h []
    exact absurd h2 (by decide)⟩

/-- C2: for a model instance constructed with t = 1, no sequence of forward
calls ever constructs the imputation subnetwork: every forward call with
t = 1 returns the model unchanged, so the imputation_model attribute stays
absent (none) and the parameters remain exactly those of the base encoder,
latent layer, decoder, output projection and batch-effect layer. -/
theorem c2_t_eq_one_never_constructs (m : Model) (calls : List ((Mat → Mat) × Mat × Mat))
    (ht : m.t = 1) (h0 : m.imputation_model = none) :
    (calls.foldl (fun cur c => (forward cur c.1 c.2.1 c.2.2).model) m) = m
  ∧ (calls.foldl (fun cur c => (forward cur c.1 c.2.1 c.2.2).model) m).imputation_model = none := by
  have key : (calls.foldl (fun cur c => (forward cur c.1 c.2.1 c.2.2).model) m) = m := by
    induction calls with
    | nil => rfl
    | cons c cs ih =>
      show cs.foldl (fun cur c => (forward cur c.1 c.2.1 c.2.2).model)
          ((forward m c.1 c.2.1 c.2.2).model) = m
      rw [forward_model_of_t_le_one m c.1 c.2.1 c.2.2 (le_of_eq ht)]
      exact ih
  exact ⟨key, by rw [key]; exact h0⟩

theorem c2_t_eq_one_never_constructs_witness :
    oneCellModel1.t = 1
  ∧ oneCellModel1.imputation_model = none
  ∧ (([(constMat0, [[2]], [[1]]), (constMat1, [[3]], [[1]])] :
        List ((Mat → Mat) × Mat × Mat)).foldl
      (fun cur c => (forward cur c.1 c.2.1 c.2.2).model) oneCellModel1).imputation_model = none :=
  ⟨rfl, rfl,
    (c2_t_eq_one_never_constructs oneCellModel1
      [(constMat0, [[2]], [[1]]), (constMat1, [[3]], [[1]])] rfl rfl).2⟩

/-- C7: for every expression matrix and batch indicator, forward returns an
ordered sequence of exactly t per-round outputs and exactly t per-round
latents, and the batch correction it returns is the batch-effect layer
applied to the indicator, computed once before the round loop: it does not
depend on the number of rounds t, on the fresh imputation network, or on
the expression matrix, so the single value is what every round uses. -/
theorem c7_forward_interface (m : Model) (fresh : Mat → Mat) (x b : Mat) :
    (forward m fresh x b).output_list.length = m.t
  ∧ (forward m fresh x b).latent_features_list.length = m.t
  ∧ (forward m fresh x b).batch_effect_removal_layer = linearNoBias m.batch_effect_weight b
  ∧ ∀ (t2 : ℕ) (fresh2 : Mat → Mat) (x2 : Mat),
      (forward { m with t := t2 } fresh2 x2 b).batch_effect_removal_layer
        = (forward m fresh x b).batch_effect_removal_layer := by
  refine ⟨forward_len_fst m fresh x b, forward_len_snd m fresh x b, forward_bc m fresh x b, ?_⟩
  intro t2 fresh2 x2
  rw [forward_bc m fresh x b, forward_bc { m with t := t2 } fresh2 x2 b]

/-- C8: the claim that predict returns detached output, per-round latent
and batch-correction arrays fails on the code: line 166 calls .detach() on
output_layer, which is the Python list of per-round output tensors returned
by forward, and a list has no detach attribute, so every call to predict
raises an AttributeError instead of returning the triple. -/
theorem c8_predict_always_raises (m : Model) (fresh : Mat → Mat) (input_d : Mat)
    (batch_data : List ℤ) :
    predict m fresh input_d batch_data
      = Except.error "AttributeError: list object has no attribute detach" := rfl

/-- C4: the imputation merge imputed * (1 - sign(original input)) yields an
imputed contribution of exactly 0 at every entry where the raw input is
nonnegative and nonzero, so observed entries are never altered; and at an
entry where the raw input is exactly zero (and stored in both operands),
the merged value is exactly the imputed estimate. -/
theorem c4_merge_preserves_observed (input imputed : Mat) (i j : ℕ) :
    (0 ≤ entry input i j → entry input i j ≠ 0 → entry (mergeImputed input imputed) i j = 0)
  ∧ (j < (input.getD i []).length → j < (imputed.getD i []).length → entry input i j = 0 →
      entry (mergeImputed input imputed) i j = entry imputed i j) := by
  constructor
  · intro h0 hne
    simp only [entry] at h0 hne
    have hj : j < (input.getD i []).length := by
      by_contra hj
      exact hne (getD_len_le 0 (input.getD i []) j (by omega))
    simp only [entry, mergeImputed, map2_getD_row]
    by_cases hb : j < (imputed.getD i []).length
    · rw [zipWith_row_getD_lt _ _ _ j hj hb]
      have hpos : 0 < (input.getD i []).getD j 0 := lt_of_le_of_ne h0 (Ne.symm hne)
      rw [(signQ_eq_one_iff _).mpr hpos]
      ring
    · have hlen : (List.zipWith (fun x im => (1 - signQ x) * im)
          (input.getD i []) (imputed.getD i [])).length ≤ j := by
        rw [List.length_zipWith]
        omega
      rw [getD_len_le 0 _ j hlen]
  · intro hj1 hj2 hz
    simp only [entry] at hz ⊢
    simp only [mergeImputed, map2_getD_row]
    rw [zipWith_row_getD_lt _ _ _ j hj1 hj2, hz, signQ_zero]
    ring

theorem c4_merge_preserves_observed_witness :
    (0 : ℚ) ≤ entry [[2]] 0 0
  ∧ entry [[2]] 0 0 ≠ 0
  ∧ entry (mergeImputed [[2]] [[5]]) 0 0 = 0
  ∧ entry [[0, 2]] 0 0 = 0
  ∧ entry (mergeImputed [[0, 2]] [[7, 8]]) 0 0 = entry [[7, 8]] 0 0 :=
  ⟨by decide, by decide,
    (c4_merge_preserves_observed [[2]] [[5]] 0 0).1 (by decide) (by decide),
    by decide,
    (c4_merge_preserves_observed [[0, 2]] [[7, 8]] 0 0).2 (by decide) (by decide) (by decide)⟩

/-- C5 counterexample: at raw input [[0]] with batch correction [[1]], the
batch-corrected input entry is -1, which is negative, and the
masking-enabled mask entry is -1, not 0 as the claim states for
zero-or-negative entries (torch.sign is -1 on negatives). -/
theorem c5_mask_counterexample :
    entry (subM [[0]] [[1]]) 0 0 < 0
  ∧ entry (lossMask true [[0]] [[1]]) 0 0 = -1
  ∧ entry (lossMask true [[0]] [[1]]) 0 0 ≠ 0 := by
  refine ⟨?_, ?_, ?_⟩ <;> norm_num [entry, lossMask, signM, mapMat, subM, map2, signQ]

/-- C5 (amended): the mask with masking enabled equals sign of the
batch-corrected input — 1 where the corrected input is positive, 0 where it
is zero, and -1 (not 0) where it is negative; the mask with masking
disabled equals sign(batch-corrected input + 1) entrywise; and for any
input containing at least one zero entry, the disabled mask selects at
least as many entries with mask value 1 as the enabled mask. -/
theorem c5_mask_semantics (input_d bc : Mat) (i j : ℕ) :
    entry (lossMask true input_d bc) i j = signQ (entry (subM input_d bc) i j)
  ∧ (0 < entry (subM input_d bc) i j → entry (lossMask true input_d bc) i j = 1)
  ∧ (entry (subM input_d bc) i j = 0 → entry (lossMask true input_d bc) i j = 0)
  ∧ (entry (subM input_d bc) i j < 0 → entry (lossMask true input_d bc) i j = -1)
  ∧ (j < ((subM input_d bc).getD i []).length →
      entry (lossMask false input_d bc) i j = signQ (entry (subM input_d bc) i j + 1))
  ∧ ((∃ a b2, entry input_d a b2 = 0) →
      countOnes (lossMask true input_d bc) ≤ countOnes (lossMask false input_d bc)) := by
  have h1 : entry (lossMask true input_d bc) i j = signQ (entry (subM input_d bc) i j) :=
    entry_mapMat_zero signQ signQ_zero (subM input_d bc) i j
  refine ⟨h1, ?_, ?_, ?_, ?_, ?_⟩
  · intro h
    rw [h1]
    exact (signQ_eq_one_iff _).mpr h
  · intro h
    rw [h1, h, signQ_zero]
  · intro h
    rw [h1]
    have hn : ¬ 0 < entry (subM input_d bc) i j := by linarith
    simp [signQ, hn, h]
  · intro hj
    have e1 : entry (lossMask false input_d bc) i j
        = signQ (entry (addCM (subM input_d bc) 1) i j) :=
      entry_mapMat_zero signQ signQ_zero (addCM (subM input_d bc) 1) i j
    have e2 : entry (addCM (subM input_d bc) 1) i j = entry (subM input_d bc) i j + 1 :=
      entry_mapMat_lt (fun x => x + 1) (subM input_d bc) i j hj
    rw [e1, e2]
  · intro _
    exact countOnes_signM_le (subM input_d bc)

theorem c5_mask_semantics_witness :
    (0 : ℕ) < ((subM [[0]] [[0]]).getD 0 []).length
  ∧ entry [[0]] 0 0 = 0
  ∧ entry (lossMask true [[0]] [[0]]) 0 0 = signQ (entry (subM [[0]] [[0]]) 0 0)
  ∧ entry (lossMask false [[0]] [[0]]) 0 0 = signQ (entry (subM [[0]] [[0]]) 0 0 + 1)
  ∧ countOnes (lossMask true [[0]] [[0]]) ≤ countOnes (lossMask false [[0]] [[0]]) :=
  ⟨by decide, by decide,
    (c5_mask_semantics [[0]] [[0]] 0 0).1,
    (c5_mask_semantics [[0]] [[0]] 0 0).2.2.2.2.1 (by decide),
    (c5_mask_semantics [[0]] [[0]] 0 0).2.2.2.2.2 ⟨0, 0, by decide⟩⟩

/-- C3: whenever the shared denominator norm(mask * raw input) is nonzero,
the loss is the finite unweighted sum over all rounds of
norm(mask * output_i - mask * (raw input - batch correction)) divided by
norm(mask * raw input) — each numerator uses the batch-corrected input
while the denominator uses the uncorrected raw input, and no round is
averaged or down-weighted; in particular, for t = 2 with round 2's masked
output exactly equal to the masked corrected target, the total loss equals
round 1's contribution exactly. -/
theorem c3_loss_unweighted_sum (outs : List Mat) (input_d bc : Mat) (um : Bool) (o1 o2 : Mat)
    (hne : outs ≠ [])
    (hden : normSq (mulM (lossMask um input_d bc) input_d) ≠ 0)
    (h2 : mulM (lossMask um input_d bc) o2 = mulM (lossMask um input_d bc) (subM input_d bc)) :
    loss outs input_d um bc
      = some ((outs.map (lossTermOf (lossMask um input_d bc) (subM input_d bc) input_d)).sum)
  ∧ loss [o1, o2] input_d um bc
      = some (lossTermOf (lossMask um input_d bc) (subM input_d bc) input_d o1) := by
  have hcons : ∀ (o : Mat) (os : List Mat), loss (o :: os) input_d um bc
      = os.foldl
        (fun acc o2 => addOpt acc (lossTerm (lossMask um input_d bc) o2 (subM input_d bc) input_d))
        (lossTerm (lossMask um input_d bc) o (subM input_d bc) input_d) :=
    fun o os => rfl
  have hterm : ∀ o, lossTerm (lossMask um input_d bc) o (subM input_d bc) input_d
      = some (lossTermOf (lossMask um input_d bc) (subM input_d bc) input_d o) := by
    intro o
    simp only [lossTerm, lossTermOf]
    rw [if_neg hden]
  constructor
  · obtain ⟨o, os, rfl⟩ := List.exists_cons_of_ne_nil hne
    rw [hcons o os, hterm o,
      foldl_addOpt_some _ (lossTermOf (lossMask um input_d bc) (subM input_d bc) input_d)
        hterm os _]
    simp
  · have hterm2 : lossTerm (lossMask um input_d bc) o2 (subM input_d bc) input_d = some 0 := by
      simp only [lossTerm]
      rw [if_neg hden, h2, rnorm_subM_self, zero_div]
    rw [hcons o1 [o2]]
    simp only [List.foldl_cons, List.foldl_nil]
    rw [hterm o1, hterm2]
    show some (lossTermOf (lossMask um input_d bc) (subM input_d bc) input_d o1 + 0) = _
    rw [add_zero]

theorem c3_loss_unweighted_sum_witness :
    (([[[2]]] : List Mat) ≠ [])
  ∧ normSq (mulM (lossMask true [[1]] [[0]]) [[1]]) ≠ 0
  ∧ mulM (lossMask true [[1]] [[0]]) [[1]] = mulM (lossMask true [[1]] [[0]]) (subM [[1]] [[0]])
  ∧ loss [[[2]]] [[1]] true [[0]]
      = some ((([[[2]]] : List Mat).map
          (lossTermOf (lossMask true [[1]] [[0]]) (subM [[1]] [[0]]) [[1]])).sum)
  ∧ loss [[[2]], [[1]]] [[1]] true [[0]]
      = some (lossTermOf (lossMask true [[1]] [[0]]) (subM [[1]] [[0]]) [[1]] [[2]]) := by
  have hne : (([[[2]]] : List Mat) ≠ []) := by simp
  have hden : normSq (mulM (lossMask true [[1]] [[0]]) [[1]]) ≠ 0 := by
    norm_num [normSq, mulM, lossMask, signM, mapMat, subM, map2, signQ]
  have h2 : mulM (lossMask true [[1]] [[0]]) [[1]]
      = mulM (lossMask true [[1]] [[0]]) (subM [[1]] [[0]]) := by
    norm_num [mulM, lossMask, signM, mapMat, subM, map2, signQ]
  exact ⟨hne, hden, h2,
    (c3_loss_unweighted_sum [[[2]]] [[1]] [[0]] true [[2]] [[1]] hne hden h2).1,
    (c3_loss_unweighted_sum [[[2]]] [[1]] [[0]] true [[2]] [[1]] hne hden h2).2⟩

/-- C6: when the masked norm denominator norm(mask * raw input) is zero,
the loss computation does not guard the division and does not raise a
reported error: it still returns a value to the caller, namely the
non-finite float produced by the unguarded division (embedded as none),
which propagates through the summation over rounds. -/
theorem c6_zero_denominator_nonfinite (outs : List Mat) (o : Mat) (os : List Mat)
    (input_d bc : Mat) (um : Bool)
    (houts : outs = o :: os)
    (hden : normSq (mulM (lossMask um input_d bc) input_d) = 0) :
    loss outs input_d um bc = none := by
  subst houts
  have hcons : loss (o :: os) input_d um bc
      = os.foldl
        (fun acc o2 => addOpt acc (lossTerm (lossMask um input_d bc) o2 (subM input_d bc) input_d))
        (lossTerm (lossMask um input_d bc) o (subM input_d bc) input_d) := rfl
  have ht : lossTerm (lossMask um input_d bc) o (subM input_d bc) input_d = none := by
    simp only [lossTerm]
    rw [if_pos hden]
  rw [hcons, ht]
  exact foldl_addOpt_none _ os

theorem c6_zero_denominator_nonfinite_witness :
    (([[[5]]] : List Mat) = [[5]] :: [])
  ∧ normSq (mulM (lossMask true [[0]] [[0]]) [[0]]) = 0
  ∧ loss [[[5]]] [[0]] true [[0]] = none := by
  have hden : normSq (mulM (lossMask true [[0]] [[0]]) [[0]]) = 0 := by
    norm_num [normSq, mulM, lossMask, signM, mapMat, subM, map2, signQ]
  exact ⟨rfl, hden,
    c6_zero_denominator_nonfinite [[[5]]] [[5]] [] [[0]] [[0]] true rfl hden⟩

/-- C9: when all batch labels are equal to the same single value, the
constructed batch indicator is an all-ones cells × 1 column — a constant
ones vector rather than a one-hot matrix — with one row [1] per cell, as
built in both the trainer's setup and predict. -/
theorem c9_single_batch_indicator (labels : List ℤ) (v : ℤ)
    (hall : ∀ l ∈ labels, l = v) :
    buildOneHotBatches labels = List.replicate labels.length [(1 : ℚ)]
  ∧ (buildOneHotBatches labels).length = labels.length
  ∧ ∀ r ∈ buildOneHotBatches labels, r = [(1 : ℚ)] := by
  have hc : ¬ 1 < labels.dedup.length := by
    have := dedup_length_le_one labels v hall
    omega
  have h1 : buildOneHotBatches labels = List.replicate labels.length [(1 : ℚ)] := by
    simp [buildOneHotBatches, hc]
  refine ⟨h1, by rw [h1]; simp, ?_⟩
  intro r hr
  rw [h1] at hr
  exact List.eq_of_mem_replicate hr

theorem c9_single_batch_indicator_witness :
    (∀ l ∈ ([2, 2, 2] : List ℤ), l = 2)
  ∧ buildOneHotBatches [2, 2, 2] = List.replicate 3 [(1 : ℚ)] :=
  ⟨by decide, (c9_single_batch_indicator [2, 2, 2] 2 (by decide)).1⟩

/-- C10: in the multi-batch case the numpy advanced assignment
one_hot[:, labels - 1] = 1 gives every cell the same indicator row: the
matrix is constantly equal to one row, whose entry at column j is 1 exactly
when some label anywhere in the label vector (not the cell's own label)
equals j + 1 — entire columns label - 1 are set to 1 across all rows,
rather than a per-cell one-hot. -/
theorem c10_multibatch_rows_identical (labels : List ℤ)
    (hmulti : 1 < labels.dedup.length)
    (hrange : ∀ l ∈ labels, 1 ≤ l ∧ l ≤ (labels.dedup.length : ℤ)) :
    (∀ i1 i2, i1 < labels.length → i2 < labels.length →
        (buildOneHotBatches labels).getD i1 [] = (buildOneHotBatches labels).getD i2 [])
  ∧ (∀ i j, i < labels.length → j < labels.dedup.length →
        entry (buildOneHotBatches labels) i j
          = if ∃ l ∈ labels, l - 1 = (j : ℤ) then 1 else 0) := by
  have hb : buildOneHotBatches labels
      = oneHotAssign labels labels.length labels.dedup.length := by
    simp [buildOneHotBatches, hmulti]
  constructor
  · intro i1 i2 h1 h2
    rw [hb]
    unfold oneHotAssign
    rw [replicate_getD_lt _ _ _ _ h1, replicate_getD_lt _ _ _ _ h2]
  · intro i j hi hj
    rw [hb]
    unfold entry oneHotAssign
    rw [replicate_getD_lt _ _ _ _ hi, range_map_getD _ _ j hj]
    show (if (labels.any fun l => (l - 1) % (labels.dedup.length : ℤ) == (j : ℤ)) = true
        then (1 : ℚ) else 0) = if ∃ l ∈ labels, l - 1 = (j : ℤ) then 1 else 0
    have hiff : (labels.any (fun l => (l - 1) % (labels.dedup.length : ℤ) == (j : ℤ)) = true)
        ↔ (∃ l ∈ labels, l - 1 = (j : ℤ)) := by
      rw [List.any_eq_true]
      constructor
      · rintro ⟨l, hl, hpl⟩
        refine ⟨l, hl, ?_⟩
        have hm : (l - 1) % (labels.dedup.length : ℤ) = (j : ℤ) := by simpa using hpl
        rcases hrange l hl with ⟨ha, hb2⟩
        rwa [Int.emod_eq_of_lt (by omega) (by omega)] at hm
      · rintro ⟨l, hl, hpl⟩
        refine ⟨l, hl, ?_⟩
        rcases hrange l hl with ⟨ha, hb2⟩
        simp only [beq_iff_eq]
        rw [Int.emod_eq_of_lt (by omega) (by omega)]
        exact hpl
    by_cases hE : ∃ l ∈ labels, l - 1 = (j : ℤ)
    · rw [if_pos (hiff.mpr hE), if_pos hE]
    · rw [if_neg (fun hcontra => hE (hiff.mp hcontra)), if_neg hE]

theorem c10_multibatch_rows_identical_witness :
    (1 < ([1, 2] : List ℤ).dedup.length)
  ∧ (∀ l ∈ ([1, 2] : List ℤ), 1 ≤ l ∧ l ≤ (([1, 2] : List ℤ).dedup.length : ℤ))
  ∧ (buildOneHotBatches [1, 2]).getD 0 [] = (buildOneHotBatches [1, 2]).getD 1 [] :=
  ⟨by decide, by decide,
    (c10_multibatch_rows_identical [1, 2] (by decide) (by decide)).1 0 1
      (by decide) (by decide)⟩

end ScScopePy
